import Mathlib

/-!
# Verification of the LuaFormater `lua-utils` module

This file gives a shallow embedding, over `List Char` / `String`, of the four
text-transformation functions in `src/lib/lua-utils.ts`:

* `deleteAllComments` — three sequential global regex replaces:
  1. `code.replace(RE1/g, '')` with RE1 = `--\[(=*)\[[\s\S]*?\]\1\]`
  2. `result.replace(RE2/g, '')` with RE2 = `--(?![\[=]*\[).*`
  3. `result.replace(RE3/gm, '')` with RE3 = `^\s*[\r\n]`
* `hasComments` — `RE1.test(code) || (--(?![\[=]*\[)).test(code)`
* `toOneLiner` — comment handling then `[\r\n\t]+ → ' '` (g), `\s{2,} → ' '` (g), `trim()`
* `beautifyCode` — line-break insertion passes, an indentation loop, and a
  final blank-line collapse, inside a try/catch returning the input on error.

The embedding follows JavaScript regex semantics exactly as they behave on the
patterns above (left-to-right scan, leftmost match, greedy/lazy quantifiers
with backtracking, `g`-flag continuation after each match).  Each scanner is
written with an explicit fuel argument (structural recursion on the fuel) so
that every definition is executable and kernel-reducible; the public wrappers
instantiate the fuel with the input length, which all proofs show is enough.
-/

namespace LuaUtils

/-- JavaScript line terminators: the characters excluded by `.` and the
positions after which a multiline `^` matches. -/
def isTermC (c : Char) : Bool :=
  c = '\n' || c = '\r' || c = '\u2028' || c = '\u2029'

/-- The character class `[\r\n]` used by the blank-line regex. -/
def isCRLF (c : Char) : Bool :=
  c = '\r' || c = '\n'

/-- JavaScript `\s` (WhiteSpace and LineTerminator productions). -/
def isSpaceC (c : Char) : Bool :=
  c = ' ' || c = '\t' || c = '\n' || c = '\r' || c = '\x0b' || c = '\x0c' ||
  c = '\u00a0' || c = '\u1680' ||
  (0x2000 ≤ c.toNat && c.toNat ≤ 0x200a) ||
  c = '\u2028' || c = '\u2029' || c = '\u202f' || c = '\u205f' || c = '\u3000' ||
  c = '\ufeff'

/-- The negative lookahead `(?![\[=]*\[)` of the single-line comment regex
*fails* exactly when the text after `--` starts with a run of `[`/`=`
characters followed by one more `[`; equivalently (by backtracking on the
greedy `[\[=]*`) when the head is `[`, or the head is `=` and the rest again
satisfies the condition.  `shielded rest = true` means the lookahead pattern
`[\[=]*\[` matches at `rest`, so `--` followed by `rest` is *not* treated as a
single-line comment. -/
def shielded : List Char → Bool
  | [] => false
  | c :: rest => if c = '[' then true else if c = '=' then shielded rest else false

/-- Number of `=` characters captured by the greedy `(=*)` of the long-bracket
regex: the maximal run of `=` at the front (backtracking can never choose a
shorter run, because the following `\[` would then face an `=`). -/
def countEq (s : List Char) : Nat :=
  (s.takeWhile (fun c => c = '=')).length

/-- The closing delimiter `]` + n `=` + `]` demanded by `\]\1\]`. -/
def closerL (n : Nat) : List Char :=
  ']' :: (List.replicate n '=' ++ [']'])

/-- The opening delimiter `--[` + n `=` + `[`. -/
def openerL (n : Nat) : List Char :=
  '-' :: '-' :: '[' :: (List.replicate n '=' ++ ['['])

/-- Search of the lazy `[\s\S]*?\]\1\]`: find the first position where the
closer occurs and return the remainder of the text after it; `none` when no
closer occurs (the whole match attempt then fails). -/
def findCloser (n : Nat) : List Char → Option (List Char)
  | [] => none
  | c :: cs =>
    if (closerL n).isPrefixOf (c :: cs) then some (List.drop (n + 2) (c :: cs))
    else findCloser n cs

/-- One global-replace pass of `--\[(=*)\[[\s\S]*?\]\1\]` (flag g) with empty
replacement: on `--[` + `=`-run + `[`, delete through the first matching
closer and continue after it; on a failed attempt (or any other character)
emit one character and rescan from the next position. -/
def removeLongF : Nat → List Char → List Char
  | 0, s => s
  | fuel + 1, [] => []
  | fuel + 1, c :: cs =>
    if c = '-' then
      match cs with
      | c2 :: c3 :: rest =>
        if c2 = '-' ∧ c3 = '[' then
          let n := countEq rest
          match rest.drop n with
          | r1 :: content =>
            if r1 = '[' then
              match findCloser n content with
              | some suffix => removeLongF fuel suffix
              | none => c :: removeLongF fuel cs
            else c :: removeLongF fuel cs
          | [] => c :: removeLongF fuel cs
        else c :: removeLongF fuel cs
      | _ => c :: removeLongF fuel cs
    else c :: removeLongF fuel cs

/-- One global-replace pass of `--(?![\[=]*\[).*` (flag g) with empty replacement:
an unshielded `--` is deleted together with the rest of its physical line
(`.` stops before a line terminator); scanning continues at the terminator. -/
def removeSingleF : Nat → List Char → List Char
  | 0, s => s
  | fuel + 1, [] => []
  | fuel + 1, c :: cs =>
    match cs with
    | c2 :: rest =>
      if c = '-' ∧ c2 = '-' ∧ shielded rest = false then
        removeSingleF fuel (rest.dropWhile (fun x => isTermC x = false))
      else c :: removeSingleF fuel cs
    | [] => [c]

/-- Match of `\s*[\r\n]` at a line start: by greediness with backtracking the
match extends through the *last* `\r`/`\n` inside the maximal whitespace run;
returns the remainder after the match, or `none` when the run contains no
`\r`/`\n`. -/
def blankMatch : List Char → Option (List Char)
  | [] => none
  | c :: cs =>
    if isSpaceC c then
      match blankMatch cs with
      | some r => some r
      | none => if isCRLF c then some cs else none
    else none

/-- One global-replace pass of `^\s*[\r\n]` (flags gm) with empty replacement.  The
flag records whether the current position is a multiline `^` position (the
string start or the position after a line terminator). -/
def stripBlankF : Nat → Bool → List Char → List Char
  | 0, _, s => s
  | fuel + 1, _, [] => []
  | fuel + 1, atStart, c :: cs =>
    if atStart then
      match blankMatch (c :: cs) with
      | some r => stripBlankF fuel true r
      | none => c :: stripBlankF fuel (isTermC c) cs
    else c :: stripBlankF fuel (isTermC c) cs

/-- First replace pass of `deleteAllComments` (long-bracket comments). -/
def removeLong (s : List Char) : List Char := removeLongF s.length s

/-- Second replace pass of `deleteAllComments` (single-line comments). -/
def removeSingle (s : List Char) : List Char := removeSingleF s.length s

/-- Third replace pass of `deleteAllComments` (blank lines). -/
def removeBlank (s : List Char) : List Char := stripBlankF s.length true s

/-- `deleteAllComments` from `src/lib/lua-utils.ts`: the three replace passes
in source order. -/
def deleteAllComments (code : String) : String :=
  String.mk (removeBlank (removeSingle (removeLong code.data)))

/-- Does the multi-line comment regex match at exactly this position?
(`--[`, greedy `=`-run, `[`, then some matching closer later.) -/
def longMatchAt : List Char → Bool
  | c1 :: c2 :: c3 :: rest =>
    if c1 = '-' ∧ c2 = '-' ∧ c3 = '[' then
      match rest.drop (countEq rest) with
      | r1 :: content => if r1 = '[' then (findCloser (countEq rest) content).isSome else false
      | [] => false
    else false
  | _ => false

/-- Does the single-line comment regex `--(?![\[=]*\[)` match at exactly this
position? -/
def singleMatchAt : List Char → Bool
  | c1 :: c2 :: rest => if c1 = '-' ∧ c2 = '-' then !shielded rest else false
  | _ => false

/-- `RegExp.test` of the multi-line regex: a match exists at some position. -/
def hasLong : List Char → Bool
  | [] => false
  | c :: cs => longMatchAt (c :: cs) || hasLong cs

/-- `RegExp.test` of the single-line regex: a match exists at some position. -/
def hasSingle : List Char → Bool
  | [] => false
  | c :: cs => singleMatchAt (c :: cs) || hasSingle cs

/-- The `multiLineRegex.test(code)` half of `hasComments`. -/
def multiLineTest (code : String) : Bool := hasLong code.data

/-- The `singleLineRegex.test(code)` half of `hasComments`. -/
def singleLineTest (code : String) : Bool := hasSingle code.data

/-- `hasComments` from `src/lib/lua-utils.ts`. -/
def hasComments (code : String) : Bool :=
  multiLineTest code || singleLineTest code

/-- Is some position the start of a `--` pair?  (Used to express side
conditions such as "the only `--` occurrence".) -/
def ddAt : List Char → Bool
  | c1 :: c2 :: _ => c1 = '-' ∧ c2 = '-'
  | _ => false

/-- The text contains a `--` pair somewhere. -/
def hasDashDash : List Char → Bool
  | [] => false
  | c :: cs => ddAt (c :: cs) || hasDashDash cs

/-- Modelled from the spec: the precondition "contains only well-terminated
comments (no unterminated long-bracket opener)" of §8.  Scanning left to
right the way the comment stripper does, every long-bracket opener
`--[` + `=`-run + `[` that is reached has a matching closer; text inside a
terminated comment is skipped, and a `--` that does not form an opener is
stepped over. -/
def wellTerminatedF : Nat → List Char → Bool
  | 0, _ => true
  | fuel + 1, [] => true
  | fuel + 1, c :: cs =>
    if c = '-' then
      match cs with
      | c2 :: c3 :: rest =>
        if c2 = '-' ∧ c3 = '[' then
          let n := countEq rest
          match rest.drop n with
          | r1 :: content =>
            if r1 = '[' then
              match findCloser n content with
              | some suffix => wellTerminatedF fuel suffix
              | none => false
            else wellTerminatedF fuel cs
          | [] => wellTerminatedF fuel cs
        else wellTerminatedF fuel cs
      | _ => wellTerminatedF fuel cs
    else wellTerminatedF fuel cs

/-- `String.prototype.trim()`: strip JavaScript whitespace from both ends. -/
def jsTrim (s : List Char) : List Char :=
  ((s.dropWhile isSpaceC).reverse.dropWhile isSpaceC).reverse

/-- The comment-option argument of `toOneLiner`. -/
inductive CommentOption
  | preserve
  | delete
deriving DecidableEq

/-- The rewrite pass of `toOneLiner`'s preserve mode, the global replace of
`--[ \t]*(?!\[(?:=|\[)?)(.*)` by a callback.  By backtracking on the greedy
`[ \t]*`, the negative lookahead only blocks a `--` that is *immediately*
followed by `[`; every other `--` is consumed together with the rest of its
physical line, and replaced by `" --[[ <trimmed content> ]] "`, or by nothing
when the trimmed content is empty. -/
def preservePassF : Nat → List Char → List Char
  | 0, s => s
  | fuel + 1, [] => []
  | fuel + 1, c :: cs =>
    match cs with
    | c2 :: rest =>
      if c = '-' ∧ c2 = '-' ∧ rest.head? ≠ some '[' then
        let lineRest := rest.takeWhile (fun x => isTermC x = false)
        let trimmed := jsTrim lineRest
        (if trimmed = [] then []
         else " --[[ ".data ++ trimmed ++ " ]] ".data) ++
          preservePassF fuel (rest.dropWhile (fun x => isTermC x = false))
      else c :: preservePassF fuel cs
    | [] => [c]

/-- The character class `[\r\n\t]`. -/
def isNlTab (c : Char) : Bool :=
  c = '\r' || c = '\n' || c = '\t'

/-- Global replace of `[\r\n\t]+` by a single space. -/
def collapseNlTabF : Nat → List Char → List Char
  | 0, s => s
  | fuel + 1, [] => []
  | fuel + 1, c :: cs =>
    if isNlTab c then ' ' :: collapseNlTabF fuel (cs.dropWhile isNlTab)
    else c :: collapseNlTabF fuel cs

/-- Global replace of `\s{2,}` by a single space: a maximal whitespace run of
length at least two becomes one space. -/
def collapseSpacesF : Nat → List Char → List Char
  | 0, s => s
  | fuel + 1, [] => []
  | fuel + 1, c :: cs =>
    if isSpaceC c ∧ cs.head?.any isSpaceC then
      ' ' :: collapseSpacesF fuel (cs.dropWhile isSpaceC)
    else c :: collapseSpacesF fuel cs

/-- The whitespace-collapsing tail of `toOneLiner`:
`.replace(RE,' ')` twice then `.trim()`. -/
def collapseWs (s : List Char) : List Char :=
  jsTrim (collapseSpacesF (collapseNlTabF s.length s).length (collapseNlTabF s.length s))

/-- Wrapper for `preservePassF`. -/
def preservePass (s : List Char) : List Char := preservePassF s.length s

/-- `toOneLiner` from `src/lib/lua-utils.ts`. -/
def toOneLiner (code : String) (commentOption : CommentOption) : String :=
  match commentOption with
  | .delete => String.mk (collapseWs (deleteAllComments code).data)
  | .preserve => String.mk (collapseWs (preservePass code.data))

/-- `reverseCode` from `src/lib/lua-utils.ts`. -/
def reverseCode (code : String) : String :=
  String.mk code.data.reverse

/-- A word character for the JavaScript `\b` assertion: `[A-Za-z0-9_]`. -/
def isWordChar (c : Char) : Bool :=
  ('a' ≤ c && c ≤ 'z') || ('A' ≤ c && c ≤ 'Z') || ('0' ≤ c && c ≤ '9') || c = '_'

/-- The character class `[a-zA-Z_]` of the `)`-break heuristic. -/
def isLetterU (c : Char) : Bool :=
  ('a' ≤ c && c ≤ 'z') || ('A' ≤ c && c ≤ 'Z') || c = '_'

/-- `\b` after a keyword: the next character (if any) is not a word char. -/
def boundaryAfter : List Char → Bool
  | [] => true
  | c :: _ => !isWordChar c

/-- The keyword `w` occurs at the head of `s` followed by a word boundary.
(The boundary *before* the keyword is handled by the scanners' flag.) -/
def kwAt (w : List Char) (s : List Char) : Bool :=
  w.isPrefixOf s && boundaryAfter (s.drop w.length)

/-- Global replace of `;` by `;\n`. -/
def semiBreak : List Char → List Char
  | [] => []
  | c :: cs => if c = ';' then ';' :: '\n' :: semiBreak cs else c :: semiBreak cs

/-- Global replace of `\)\s*(?=[a-zA-Z_])` by `)\n`: a `)` whose maximal
whitespace run is followed by a letter or underscore loses the run and gains a
newline; the lookahead is not consumed, so scanning resumes at the letter. -/
def parenBreakF : Nat → List Char → List Char
  | 0, s => s
  | fuel + 1, [] => []
  | fuel + 1, c :: cs =>
    if c = ')' then
      match cs.dropWhile isSpaceC with
      | d :: rest =>
        if isLetterU d then ')' :: '\n' :: parenBreakF fuel (d :: rest)
        else ')' :: parenBreakF fuel cs
      | [] => ')' :: parenBreakF fuel cs
    else c :: parenBreakF fuel cs

/-- Global replace of `\b(then|do)\b` by `$1\n`.  The flag records whether
the previous character is a word character (so that `\b` holds iff the flag
is false). -/
def breakAfterF : Nat → Bool → List Char → List Char
  | 0, _, s => s
  | fuel + 1, _, [] => []
  | fuel + 1, prevW, c :: cs =>
    if !prevW && kwAt "then".data (c :: cs) then
      "then\n".data ++ breakAfterF fuel true ((c :: cs).drop 4)
    else if !prevW && kwAt "do".data (c :: cs) then
      "do\n".data ++ breakAfterF fuel true ((c :: cs).drop 2)
    else c :: breakAfterF fuel (isWordChar c) cs

/-- Global replace of `\b(end|else|elseif|until)\b` by `\n$1`.  The regex
alternation tries `else` before `elseif`, but its trailing `\b` rejects the
shorter match inside `elseif`, so matching `elseif` when it is present is
faithful. -/
def breakBeforeF : Nat → Bool → List Char → List Char
  | 0, _, s => s
  | fuel + 1, _, [] => []
  | fuel + 1, prevW, c :: cs =>
    if !prevW && kwAt "end".data (c :: cs) then
      "\nend".data ++ breakBeforeF fuel true ((c :: cs).drop 3)
    else if !prevW && kwAt "else".data (c :: cs) then
      "\nelse".data ++ breakBeforeF fuel true ((c :: cs).drop 4)
    else if !prevW && kwAt "elseif".data (c :: cs) then
      "\nelseif".data ++ breakBeforeF fuel true ((c :: cs).drop 6)
    else if !prevW && kwAt "until".data (c :: cs) then
      "\nuntil".data ++ breakBeforeF fuel true ((c :: cs).drop 5)
    else c :: breakBeforeF fuel (isWordChar c) cs

/-- `String.prototype.split('\n')`. -/
def splitNl : List Char → List (List Char)
  | [] => [[]]
  | c :: cs =>
    if c = '\n' then [] :: splitNl cs
    else
      match splitNl cs with
      | l :: ls => (c :: l) :: ls
      | [] => [[c]]

/-- `^(end|else|elseif|until)\b` on a (trimmed) line. -/
def startsClose (t : List Char) : Bool :=
  kwAt "end".data t || kwAt "else".data t || kwAt "elseif".data t || kwAt "until".data t

/-- `^(else|elseif)\b` on a (trimmed) line. -/
def startsElse (t : List Char) : Bool :=
  kwAt "else".data t || kwAt "elseif".data t

/-- Does the line contain one of the keywords as a whole word
(`\b(...)\b`)?  The flag records whether the previous character is a word
character. -/
def containsKwScan (ws : List (List Char)) : Bool → List Char → Bool
  | _, [] => false
  | prevW, c :: cs =>
    (!prevW && ws.any (fun w => kwAt w (c :: cs))) || containsKwScan ws (isWordChar c) cs

/-- `\b(function|if|while|for|repeat|do|then)\b`. -/
def containsOpen (t : List Char) : Bool :=
  containsKwScan ["function".data, "if".data, "while".data, "for".data,
    "repeat".data, "do".data, "then".data] false t

/-- `\b(end)\b`. -/
def containsEnd (t : List Char) : Bool :=
  containsKwScan ["end".data] false t

/-- `indentChar.repeat(n)` for a JavaScript number `n`: throws a `RangeError`
when `n` is negative, modelled as `Except.error`. -/
def jsRepeat (s : List Char) (n : Int) : Except String (List Char) :=
  if n < 0 then Except.error "Invalid count value"
  else Except.ok (List.flatten (List.replicate n.toNat s))

/-- The per-line loop of `beautifyCode`: threads the indent level and the
accumulated `formatted` string; `jsRepeat` is the only fallible step. -/
def beautifyLoop : Int → List Char → List (List Char) → Except String (Int × List Char)
  | level, acc, [] => Except.ok (level, acc)
  | level, acc, line :: rest =>
    let t := jsTrim line
    if t = [] then beautifyLoop level acc rest
    else
      let lv1 := if startsClose t then max 0 (level - 1) else level
      match jsRepeat "  ".data lv1 with
      | Except.error e => Except.error e
      | Except.ok ind =>
        let lv2 := if containsOpen t && !containsEnd t && !startsElse t then lv1 + 1 else lv1
        beautifyLoop lv2 (acc ++ ind ++ t ++ ['\n']) rest

/-- Search for the final `\n` of a `\n\s*\n` match: within the maximal
whitespace run, the *last* `\n` (greediness); returns the remainder after
it. -/
def lastNl : List Char → Option (List Char)
  | [] => none
  | c :: cs =>
    if isSpaceC c then
      match lastNl cs with
      | some r => some r
      | none => if c = '\n' then some cs else none
    else none

/-- Global replace of `\n\s*\n` by `\n`. -/
def collapseBlankF : Nat → List Char → List Char
  | 0, s => s
  | fuel + 1, [] => []
  | fuel + 1, c :: cs =>
    if c = '\n' then
      match lastNl cs with
      | some r => '\n' :: collapseBlankF fuel r
      | none => '\n' :: collapseBlankF fuel cs
    else c :: collapseBlankF fuel cs

/-- The four line-break insertion replaces of `beautifyCode`, in source
order: after `;`, after a `)` that precedes an identifier, after `then`/`do`,
before `end`/`else`/`elseif`/`until`. -/
def beautifyPre (code : String) : List Char :=
  let s1 := semiBreak code.data
  let s2 := parenBreakF s1.length s1
  let s3 := breakAfterF s2.length false s2
  breakBeforeF s3.length false s3

/-- The `try` block of `beautifyCode` as a fallible computation.  Every string
operation in it is total except `indentChar.repeat(indentLevel)`, which
throws on a negative count; the `catch` clause of the source maps an error to
the original input (the `console.error` side effect is not modelled). -/
def beautifyCodeE (code : String) : Except String String :=
  match beautifyLoop 0 [] (splitNl (beautifyPre code)) with
  | Except.error e => Except.error e
  | Except.ok (_, formatted) =>
    Except.ok (String.mk (jsTrim (collapseBlankF formatted.length formatted)))

/-- `beautifyCode` from `src/lib/lua-utils.ts`: the `try` block, with the
`catch` clause returning the original input. -/
def beautifyCode (code : String) : String :=
  match beautifyCodeE code with
  | Except.ok r => r
  | Except.error _ => code

/-- Modelled from the spec: wrapper for `wellTerminatedF`. -/
def wellTerminated (code : String) : Bool :=
  wellTerminatedF code.data.length code.data


/-- Declarative reading of "the text contains a long-bracket comment": some
position starts `--[` + n `=` + `[` and a matching closer with the same `=`
count occurs later.  (The regex always captures the maximal `=`-run, but a
decomposition witness forces exactly that run, since the character after the
captured run is `[`.) -/
def HasLongComment (s : List Char) : Prop :=
  ∃ p n m q, s = p ++ openerL n ++ m ++ closerL n ++ q

/-- Declarative reading of "some `--` is treated as a single-line comment":
some `--` occurrence is not shielded by a `[`/`=` run ending in `[`. -/
def HasLoneDashDash (s : List Char) : Prop :=
  ∃ p r, s = p ++ '-' :: '-' :: r ∧ shielded r = false

/-- Modelled from the spec (claim C2's wording): the text right after a `--`
"immediately begins a long-bracket opener", i.e. is `[`, zero or more `=`,
then `[`. -/
def specBeginsLongOpener : List Char → Bool
  | [] => false
  | c :: rest =>
    if c = '[' then
      match rest.drop (countEq rest) with
      | d :: _ => d = '['
      | [] => false
    else false

/-- The result "contains a blank line" in the sense of the stripper's own
regex: at some multiline `^` position, `\s*[\r\n]` matches (an empty or
whitespace-only line segment terminated by `\r` or `\n`). -/
def hasBlankLine : Bool → List Char → Bool
  | _, [] => false
  | atStart, c :: cs =>
    (atStart && (blankMatch (c :: cs)).isSome) || hasBlankLine (isTermC c) cs


/-! ## Basic lemmas about the scanners -/

theorem removeLongF_nil (f : Nat) : removeLongF f [] = [] := by
  cases f <;> rfl

theorem removeSingleF_nil (f : Nat) : removeSingleF f [] = [] := by
  cases f <;> rfl

theorem stripBlankF_nil (f : Nat) (b : Bool) : stripBlankF f b [] = [] := by
  cases f <;> rfl

theorem countEq_cons_eq (l : List Char) : countEq ('=' :: l) = countEq l + 1 := by
  simp [countEq, List.takeWhile_cons]

theorem countEq_cons_bracket (l : List Char) : countEq ('[' :: l) = 0 := by
  simp [countEq, List.takeWhile_cons]

theorem countEq_replicate_bracket (n : Nat) (l : List Char) :
    countEq (List.replicate n '=' ++ '[' :: l) = n := by
  induction n with
  | zero => simp [countEq_cons_bracket]
  | succ k ih => simp [List.replicate_succ, countEq_cons_eq, ih]

theorem drop_replicate_eq (n : Nat) (l : List Char) :
    (List.replicate n '=' ++ l).drop n = l := by
  have h := List.drop_left (List.replicate n '=') l
  rwa [List.length_replicate] at h

theorem isPrefixOf_self (l : List Char) : l.isPrefixOf l = true :=
  List.isPrefixOf_iff_prefix.mpr (List.prefix_refl l)

theorem closerL_length (n : Nat) : (closerL n).length = n + 2 := by
  simp [closerL]

theorem findCloser_cons (n : Nat) (c : Char) (cs : List Char) :
    findCloser n (c :: cs) =
      if (closerL n).isPrefixOf (c :: cs) then some (List.drop (n + 2) (c :: cs))
      else findCloser n cs := by
  rw [findCloser]

theorem findCloser_closer (n : Nat) : findCloser n (closerL n) = some [] := by
  have h2 : List.drop (n + 2) (closerL n) = [] := by
    rw [← closerL_length n]; exact List.drop_length _
  have hc : closerL n = ']' :: (List.replicate n '=' ++ [']']) := rfl
  conv_lhs => rw [hc, findCloser_cons, ← hc]
  rw [if_pos (isPrefixOf_self _), h2]

/-- A step lemma of `removeLongF` at an opener position: the `(=*)` capture
equals `n` and the inner `[` is found, so the attempt succeeds or fails with
the closer search. -/
theorem removeLongF_opener (f n : Nat) (content : List Char) :
    removeLongF (f + 1) ('-' :: '-' :: '[' :: (List.replicate n '=' ++ '[' :: content))
      = match findCloser n content with
        | some suffix => removeLongF f suffix
        | none =>
          '-' :: removeLongF f ('-' :: '[' :: (List.replicate n '=' ++ '[' :: content)) := by
  rw [removeLongF]
  simp only [countEq_replicate_bracket, drop_replicate_eq]
  simp

/-! ## C3: exact `=`-count matching at the closer -/

/-- **C3.**  In `deleteAllComments`, the number of `=` characters at a
long-bracket closer must exactly equal the number captured at its opener,
with no upper bound on that number: `deleteAllComments "--[==[ a ]=] b ]==]"`
removes the entire span (not stopping at the inner `]=]` with mismatched
count) and yields `""`, and for *every* `n` the input
`--[` + n `=` + `[x]` + n `=` + `]` is deleted entirely. -/
theorem c3_closer_count_exact :
    deleteAllComments "--[==[ a ]=] b ]==]" = "" ∧
    ∀ n : Nat,
      deleteAllComments (String.mk (openerL n ++ 'x' :: closerL n)) = "" := by
  constructor
  · decide
  · intro n
    have hfind : findCloser n ('x' :: closerL n) = some [] := by
      have hpre : (closerL n).isPrefixOf ('x' :: closerL n) = false := by
        have hc : closerL n = ']' :: (List.replicate n '=' ++ [']']) := rfl
        conv_lhs => rw [hc]
        simp [List.isPrefixOf]
      rw [findCloser_cons, hpre]
      simp only [Bool.false_eq_true, if_false]
      exact findCloser_closer n
    have hlong : removeLong (openerL n ++ 'x' :: closerL n) = [] := by
      have hshape : openerL n ++ 'x' :: closerL n
          = '-' :: '-' :: '[' :: (List.replicate n '=' ++ '[' :: ('x' :: closerL n)) := by
        simp [openerL]
      rw [removeLong, hshape]
      have hlen : ('-' :: '-' :: '[' ::
          (List.replicate n '=' ++ '[' :: ('x' :: closerL n))).length = (2 * n + 6) + 1 := by
        simp [closerL]
        omega
      rw [hlen, removeLongF_opener, hfind]
      exact removeLongF_nil _
    rw [deleteAllComments]
    rw [show (String.mk (openerL n ++ 'x' :: closerL n)).data
        = openerL n ++ 'x' :: closerL n from rfl]
    rw [hlong]
    rfl


/-! ## C5: the beautifier scenario -/

/-- **C5.**  `beautifyCode "if x then print(1) end"` produces exactly three
output lines: `if x then` at indent depth 0, `print(1)` at indent depth 1
(one two-space indent unit), and `end` at indent depth 0. -/
theorem c5_beautify_scenario :
    beautifyCode "if x then print(1) end" = "if x then\n  print(1)\nend" := by
  decide

/-! ## C10: `deleteAllComments` is not idempotent -/

/-- **C10.**  `deleteAllComments` is not idempotent: on
`"--[--[[a]][ x ]]"` the single left-to-right pass removes the inner
`--[[a]]`, splicing together the new complete comment `--[[ x ]]`, which is
not re-scanned; a second application removes it, so applying the function
twice differs from applying it once. -/
theorem c10_not_idempotent :
    deleteAllComments "--[--[[a]][ x ]]" = "--[[ x ]]" ∧
    deleteAllComments (deleteAllComments "--[--[[a]][ x ]]") = "" ∧
    (("" : String) == "--[[ x ]]") = false := by
  decide

/-! ## Counterexamples -/

/-- **C1, counterexample.**  `t = "--[--[[a]][ x ]]"` contains only
well-terminated comments in the sense of the spec (its only long-bracket
opener `--[[` is closed by `]]`, and its leading `--[` does not form an
opener at all), yet `hasComments (deleteAllComments t) = true`: the removal
splices together the fresh comment `--[[ x ]]`. -/
theorem c1_cex_spliced_comment_detected :
    wellTerminated "--[--[[a]][ x ]]" = true ∧
    hasComments (deleteAllComments "--[--[[a]][ x ]]") = true := by
  decide

/-- **C2, counterexample.**  In `"--[x"` the `--` does not begin a
long-bracket opener (after the `[` there is no second `[`), so by the claim
`hasComments` should be `true`; the code returns `false`, because the
lookahead `(?![\[=]*\[)` already blocks on the single `[`. -/
theorem c2_cex_dashdash_bracket_not_detected :
    specBeginsLongOpener "[x".data = false ∧
    hasComments "--[x" = false := by
  decide

/-- **C6, counterexample.**  `"--[x"` is a single-line comment (it is not a
long-bracket comment), but `toOneLiner` in preserve mode leaves it unchanged
instead of rewriting it to an inline `--[[ [x ]]` block comment: the rewrite
regex skips every `--` that is immediately followed by `[`. -/
theorem c6_cex_preserve_skips_bracket :
    toOneLiner "--[x" CommentOption.preserve = "--[x" ∧
    hasLong "--[x".data = false ∧
    (("--[x" : String) == "--[[ [x ]]") = false := by
  decide

/-- **C8, counterexample.**  `deleteAllComments "x\n "` returns `"x\n "`
unchanged: the whitespace-only final line `" "` has no trailing newline, the
blank-line regex `^\s*[\r\n]` requires one, and so the whitespace-only line
survives in the result. -/
theorem c8_cex_final_blank_line_kept :
    deleteAllComments "x\n " = "x\n " ∧
    splitNl "x\n ".data = ["x".data, " ".data] := by
  decide

/-- **C9, counterexample.**  `t = "\n--[[x"` has a single `--` occurrence and
it begins an unterminated long-bracket opener, and `hasComments t = false` as
the claim says; but `deleteAllComments t = "--[[x" ≠ t`, because the
blank-line pass still deletes the leading empty line. -/
theorem c9_cex_blank_line_still_dropped :
    "\n--[[x".data = '\n' :: (openerL 0 ++ ['x']) ∧
    findCloser 0 ['x'] = none ∧
    hasComments "\n--[[x" = false ∧
    deleteAllComments "\n--[[x" = "--[[x" ∧
    (("--[[x" : String) == "\n--[[x") = false := by
  decide

/-! ## C4: the beautifier never throws -/

theorem beautifyLoop_ok (lines : List (List Char)) :
    ∀ (level : Int) (acc : List Char), 0 ≤ level →
      ∃ out, beautifyLoop level acc lines = Except.ok out := by
  induction lines with
  | nil => exact fun level acc _ => ⟨(level, acc), rfl⟩
  | cons line rest ih =>
    intro level acc hlevel
    simp only [beautifyLoop]
    by_cases ht : jsTrim line = []
    · rw [if_pos ht]
      exact ih level acc hlevel
    · rw [if_neg ht]
      have h1 : 0 ≤ (if startsClose (jsTrim line) then max 0 (level - 1) else level) := by
        split
        · exact le_max_left 0 _
        · exact hlevel
      have hrep : jsRepeat "  ".data
            (if startsClose (jsTrim line) then max 0 (level - 1) else level)
          = Except.ok (List.flatten (List.replicate
              (if startsClose (jsTrim line) then max 0 (level - 1)
               else level).toNat "  ".data)) := by
        rw [jsRepeat, if_neg (not_lt.mpr h1)]
      rw [hrep]
      have hlv2 : 0 ≤ (if containsOpen (jsTrim line) && !containsEnd (jsTrim line) &&
            !startsElse (jsTrim line)
          then (if startsClose (jsTrim line) then max 0 (level - 1) else level) + 1
          else (if startsClose (jsTrim line) then max 0 (level - 1) else level)) := by
        split
        · omega
        · exact h1
      exact ih _ _ hlv2

/-- **C4.**  `beautifyCode` never raises an error to the caller: the `try`
block (modelled as `beautifyCodeE`, in which the only fallible operation is
`indentChar.repeat` on a negative count) always succeeds, because the indent
level never becomes negative, and the caller receives exactly its value; the
`catch` branch of `beautifyCode`, which would return the input unchanged, is
never taken. -/
theorem c4_beautify_never_throws (code : String) :
    beautifyCodeE code = Except.ok (beautifyCode code) := by
  obtain ⟨out, h⟩ := beautifyLoop_ok (splitNl (beautifyPre code)) 0 [] (le_refl 0)
  obtain ⟨lvl, fmt⟩ := out
  have he : beautifyCodeE code
      = Except.ok (String.mk (jsTrim (collapseBlankF fmt.length fmt))) := by
    rw [beautifyCodeE, h]
  rw [he, beautifyCode, he]


/-! ## C7: `toOneLiner` output contains no newline and no tab -/

theorem length_dropWhile_le (p : Char → Bool) (l : List Char) :
    (l.dropWhile p).length ≤ l.length :=
  (List.dropWhile_suffix p).length_le

theorem mem_dropWhile (p : Char → Bool) {c : Char} {l : List Char}
    (h : c ∈ l.dropWhile p) : c ∈ l :=
  (List.dropWhile_suffix p).subset h

theorem mem_jsTrim {c : Char} {s : List Char} (h : c ∈ jsTrim s) : c ∈ s := by
  rw [jsTrim] at h
  exact mem_dropWhile _ (List.mem_reverse.mp (mem_dropWhile _ (List.mem_reverse.mp h)))

theorem collapseNlTabF_no_nl (f : Nat) (s : List Char) (hf : s.length ≤ f) :
    ∀ c ∈ collapseNlTabF f s, isNlTab c = false := by
  induction f generalizing s with
  | zero =>
    have : s = [] := List.length_eq_zero.mp (Nat.le_zero.mp hf)
    subst this
    intro c hc
    simp [collapseNlTabF] at hc
  | succ k ih =>
    cases s with
    | nil => intro c hc; simp [collapseNlTabF] at hc
    | cons a as =>
      have has : as.length ≤ k := Nat.le_of_succ_le_succ hf
      rw [collapseNlTabF]
      by_cases ha : isNlTab a
      · rw [if_pos ha]
        intro c hc
        rcases List.mem_cons.mp hc with h | h
        · subst h; decide
        · exact ih _ (le_trans (length_dropWhile_le _ _) has) c h
      · rw [if_neg ha]
        intro c hc
        rcases List.mem_cons.mp hc with h | h
        · subst h; exact Bool.not_eq_true _ ▸ eq_false_of_ne_true ha
        · exact ih _ has c h

theorem mem_collapseSpacesF (f : Nat) (s : List Char) (hf : s.length ≤ f) :
    ∀ c ∈ collapseSpacesF f s, c ∈ s ∨ c = ' ' := by
  induction f generalizing s with
  | zero =>
    have : s = [] := List.length_eq_zero.mp (Nat.le_zero.mp hf)
    subst this
    intro c hc
    simp [collapseSpacesF] at hc
  | succ k ih =>
    cases s with
    | nil => intro c hc; simp [collapseSpacesF] at hc
    | cons a as =>
      have has : as.length ≤ k := Nat.le_of_succ_le_succ hf
      rw [collapseSpacesF]
      by_cases ha : isSpaceC a ∧ as.head?.any isSpaceC
      · rw [if_pos ha]
        intro c hc
        rcases List.mem_cons.mp hc with h | h
        · exact Or.inr h
        · rcases ih _ (le_trans (length_dropWhile_le _ _) has) c h with h2 | h2
          · exact Or.inl (List.mem_cons_of_mem _ (mem_dropWhile _ h2))
          · exact Or.inr h2
      · rw [if_neg ha]
        intro c hc
        rcases List.mem_cons.mp hc with h | h
        · exact Or.inl (h ▸ List.mem_cons_self _ _)
        · rcases ih _ has c h with h2 | h2
          · exact Or.inl (List.mem_cons_of_mem _ h2)
          · exact Or.inr h2

/-- **C7.**  For every input string and both comment options, the string
returned by `toOneLiner` contains no newline and no tab character: the
`[\r\n\t]+` pass replaces them all by spaces, and the later passes only
shrink whitespace. -/
theorem c7_oneliner_no_newline_tab (code : String) (opt : CommentOption) :
    ((toOneLiner code opt).data.all (fun c => !(c == '\n' || c == '\t'))) = true := by
  rw [List.all_eq_true]
  have main : ∀ (s : List Char) (c : Char), c ∈ collapseWs s →
      (!(c == '\n' || c == '\t')) = true := by
    intro s c hc
    rw [collapseWs] at hc
    have hc2 := mem_jsTrim hc
    rcases mem_collapseSpacesF _ _ (le_refl _) c hc2 with h | h
    · have hn := collapseNlTabF_no_nl _ _ (le_refl _) c h
      simp [isNlTab] at hn
      simp [hn.1.2, hn.2]
    · subst h; decide
  cases opt with
  | preserve => intro c hc; exact main _ c hc
  | delete => intro c hc; exact main _ c hc


/-! ## C2: characterization of `hasComments` -/

theorem hasLong_cons (c : Char) (cs : List Char) :
    hasLong (c :: cs) = (longMatchAt (c :: cs) || hasLong cs) := by
  rw [hasLong]

theorem hasSingle_cons (c : Char) (cs : List Char) :
    hasSingle (c :: cs) = (singleMatchAt (c :: cs) || hasSingle cs) := by
  rw [hasSingle]

theorem takeWhile_eq_replicate_countEq (s : List Char) :
    s.takeWhile (fun c => c = '=') = List.replicate (countEq s) '=' := by
  rw [List.eq_replicate_iff]
  exact ⟨rfl, fun b hb => by simpa using List.mem_takeWhile_imp hb⟩

theorem drop_countEq (s : List Char) :
    s.drop (countEq s) = s.dropWhile (fun c => c = '=') := by
  have h := List.drop_left (s.takeWhile (fun c => c = '='))
    (s.dropWhile (fun c => c = '='))
  rw [List.takeWhile_append_dropWhile] at h
  exact h

theorem rest_decomp_of_drop (s : List Char) {l : List Char}
    (h : s.drop (countEq s) = l) : s = List.replicate (countEq s) '=' ++ l := by
  conv_lhs => rw [← List.takeWhile_append_dropWhile (fun c => c = '=') s]
  rw [takeWhile_eq_replicate_countEq, ← drop_countEq, h]

theorem findCloser_some_decomp (n : Nat) (l r : List Char)
    (h : findCloser n l = some r) : ∃ m, l = m ++ closerL n ++ r := by
  induction l with
  | nil => simp [findCloser] at h
  | cons c cs ih =>
    rw [findCloser_cons] at h
    by_cases hp : (closerL n).isPrefixOf (c :: cs) = true
    · rw [if_pos hp] at h
      obtain ⟨t, ht⟩ := List.isPrefixOf_iff_prefix.mp hp
      refine ⟨[], ?_⟩
      have hdrop : List.drop (n + 2) (c :: cs) = t := by
        rw [← ht, ← closerL_length n]
        exact List.drop_left _ _
      rw [hdrop] at h
      obtain rfl := Option.some.inj h
      simp [← ht]
    · rw [if_neg hp] at h
      obtain ⟨m, hm⟩ := ih h
      exact ⟨c :: m, by simp [hm]⟩

theorem findCloser_isSome_of_occ (n : Nat) (m q : List Char) :
    (findCloser n (m ++ (closerL n ++ q))).isSome = true := by
  induction m with
  | nil =>
    have hshape : ([] : List Char) ++ (closerL n ++ q)
        = ']' :: ((List.replicate n '=' ++ [']']) ++ q) := by
      simp [closerL]
    rw [hshape, findCloser_cons]
    have hpre : (closerL n).isPrefixOf (']' :: ((List.replicate n '=' ++ [']']) ++ q))
        = true := by
      have : (']' : Char) :: ((List.replicate n '=' ++ [']']) ++ q) = closerL n ++ q := by
        simp [closerL]
      rw [this]
      exact List.isPrefixOf_iff_prefix.mpr (List.prefix_append _ _)
    rw [if_pos hpre]
    rfl
  | cons c cs ih =>
    rw [List.cons_append, findCloser_cons]
    by_cases hp : (closerL n).isPrefixOf (c :: (cs ++ (closerL n ++ q))) = true
    · rw [if_pos hp]; rfl
    · rw [if_neg hp]; exact ih

theorem longMatchAt_opener (n : Nat) (content : List Char) :
    longMatchAt ('-' :: '-' :: '[' :: (List.replicate n '=' ++ '[' :: content))
      = (findCloser n content).isSome := by
  rw [longMatchAt]
  simp only [countEq_replicate_bracket, drop_replicate_eq]
  simp

theorem hasLong_of_decomp :
    ∀ (p : List Char) (n : Nat) (m q : List Char),
      hasLong (p ++ (openerL n ++ (m ++ (closerL n ++ q)))) = true := by
  intro p
  induction p with
  | nil =>
    intro n m q
    have hshape : ([] : List Char) ++ (openerL n ++ (m ++ (closerL n ++ q)))
        = '-' :: '-' :: '[' :: (List.replicate n '=' ++ '[' :: (m ++ (closerL n ++ q))) := by
      simp [openerL]
    rw [hshape, hasLong_cons, longMatchAt_opener, findCloser_isSome_of_occ]
    rfl
  | cons c p' ih =>
    intro n m q
    rw [List.cons_append, hasLong_cons, ih n m q]
    simp

theorem hasLong_iff (s : List Char) : hasLong s = true ↔ HasLongComment s := by
  constructor
  · intro h
    induction s with
    | nil => simp [hasLong] at h
    | cons c cs ih =>
      rw [hasLong_cons, Bool.or_eq_true] at h
      rcases h with h | h
      · -- a match at this very position
        cases cs with
        | nil => rw [show longMatchAt [c] = false from rfl] at h; simp at h
        | cons c2 cs2 =>
        cases cs2 with
        | nil => rw [show longMatchAt [c, c2] = false from rfl] at h; simp at h
        | cons c3 rest =>
        rw [longMatchAt] at h
        by_cases hc : c = '-' ∧ c2 = '-' ∧ c3 = '['
        · rw [if_pos hc] at h
          obtain ⟨rfl, rfl, rfl⟩ := hc
          cases hd : rest.drop (countEq rest) with
          | nil => simp only [hd] at h; simp at h
          | cons r1 content =>
            simp only [hd] at h
            by_cases hr : r1 = '['
            · subst hr
              rw [if_pos rfl] at h
              obtain ⟨r, hr2⟩ := Option.isSome_iff_exists.mp h
              obtain ⟨m, hm⟩ := findCloser_some_decomp _ _ _ hr2
              refine ⟨[], countEq rest, m, r, ?_⟩
              have hrest := rest_decomp_of_drop rest hd
              conv_lhs => rw [hrest]
              rw [hm]
              simp [openerL, List.append_assoc]
            · rw [if_neg hr] at h; simp at h
        · rw [if_neg hc] at h; simp at h
      · obtain ⟨p, n, m, q, hpq⟩ := ih h
        exact ⟨c :: p, n, m, q, by rw [hpq]; simp⟩
  · rintro ⟨p, n, m, q, rfl⟩
    have := hasLong_of_decomp p n m q
    simpa [List.append_assoc] using this

theorem hasSingle_of_decomp :
    ∀ (p r : List Char), shielded r = false →
      hasSingle (p ++ '-' :: '-' :: r) = true := by
  intro p
  induction p with
  | nil =>
    intro r hr
    rw [List.nil_append, hasSingle_cons]
    simp [singleMatchAt, hr]
  | cons c p' ih =>
    intro r hr
    rw [List.cons_append, hasSingle_cons, ih r hr]
    simp

theorem hasSingle_iff (s : List Char) : hasSingle s = true ↔ HasLoneDashDash s := by
  constructor
  · intro h
    induction s with
    | nil => simp [hasSingle] at h
    | cons c cs ih =>
      rw [hasSingle_cons, Bool.or_eq_true] at h
      rcases h with h | h
      · cases cs with
        | nil => rw [show singleMatchAt [c] = false from rfl] at h; simp at h
        | cons c2 rest =>
        rw [singleMatchAt] at h
        by_cases hc : c = '-' ∧ c2 = '-'
        · rw [if_pos hc] at h
          obtain ⟨rfl, rfl⟩ := hc
          exact ⟨[], rest, rfl, by simpa using h⟩
        · rw [if_neg hc] at h; simp at h
      · obtain ⟨p, r, hpr, hsh⟩ := ih h
        exact ⟨c :: p, r, by rw [hpr]; rfl, hsh⟩
  · rintro ⟨p, r, rfl, hsh⟩
    exact hasSingle_of_decomp p r hsh

/-- **C2 (amended).**  `hasComments` returns true iff the string contains a
long-bracket comment, or some `--` occurrence that is *not* followed by a
(possibly empty) run of `[`/`=` characters ending in a `[`.  (The original
claim counted every `--` that fails to begin a complete opener, e.g. the one
in `--[x`; the code's lookahead `(?![\[=]*\[)` already blocks on such
prefixes, so those are not detected.) -/
theorem c2_amended_hasComments_iff (code : String) :
    hasComments code = true ↔
      HasLongComment code.data ∨ HasLoneDashDash code.data := by
  rw [hasComments, Bool.or_eq_true, multiLineTest, singleLineTest,
    hasLong_iff, hasSingle_iff]


/-! ## C1: what survives `deleteAllComments` -/

theorem hasSingle_nil : hasSingle [] = false := rfl

theorem singleMatchAt_singleton (c : Char) : singleMatchAt [c] = false := rfl

theorem singleMatchAt_dd (r : List Char) :
    singleMatchAt ('-' :: '-' :: r) = !shielded r := by
  rw [singleMatchAt, if_pos ⟨rfl, rfl⟩]

theorem singleMatchAt_head_ne {c : Char} (hc : c ≠ '-') (l : List Char) :
    singleMatchAt (c :: l) = false := by
  cases l with
  | nil => rfl
  | cons c2 r => rw [singleMatchAt, if_neg (fun hh => hc hh.1)]

theorem singleMatchAt_second_ne (c : Char) {c2 : Char} (hc2 : c2 ≠ '-')
    (r : List Char) : singleMatchAt (c :: c2 :: r) = false := by
  rw [singleMatchAt, if_neg (fun hh => hc2 hh.2)]

theorem hasSingle_tail {c : Char} {cs : List Char} (h : hasSingle (c :: cs) = false) :
    hasSingle cs = false := by
  rw [hasSingle_cons, Bool.or_eq_false_iff] at h
  exact h.2

theorem hasSingle_suffix_false {l s : List Char} (hsuf : l <:+ s)
    (h : hasSingle s = false) : hasSingle l = false := by
  obtain ⟨t, rfl⟩ := hsuf
  induction t with
  | nil => simpa using h
  | cons a t ih => exact ih (hasSingle_tail h)

theorem shielded_cases {r : List Char} (h : shielded r = true) :
    (∃ t, r = '[' :: t) ∨ (∃ t, r = '=' :: t ∧ shielded t = true) := by
  cases r with
  | nil => simp [shielded] at h
  | cons c t =>
    rw [shielded] at h
    by_cases hc : c = '['
    · exact Or.inl ⟨t, by rw [hc]⟩
    · rw [if_neg hc] at h
      by_cases he : c = '='
      · rw [if_pos he] at h
        exact Or.inr ⟨t, by rw [he], h⟩
      · rw [if_neg he] at h
        simp at h

theorem removeSingleF_cons (f : Nat) (c c2 : Char) (rest : List Char) :
    removeSingleF (f + 1) (c :: c2 :: rest)
      = if c = '-' ∧ c2 = '-' ∧ shielded rest = false
        then removeSingleF f (rest.dropWhile (fun x => isTermC x = false))
        else c :: removeSingleF f (c2 :: rest) := by
  rw [removeSingleF]

theorem removeSingleF_one (f : Nat) (c : Char) : removeSingleF (f + 1) [c] = [c] := by
  rw [removeSingleF]

/-- The shield run after a skipped `--` is reproduced verbatim by the
single-line pass, so the `--` stays shielded in the output. -/
theorem shielded_removeSingleF (f : Nat) :
    ∀ r : List Char, shielded r = true → shielded (removeSingleF f r) = true := by
  induction f with
  | zero => intro r h; exact h
  | succ k ih =>
    intro r h
    rcases shielded_cases h with ⟨t, rfl⟩ | ⟨t, rfl, ht⟩
    · cases t with
      | nil => rw [removeSingleF_one]; exact h
      | cons a as =>
        rw [removeSingleF_cons, if_neg (fun hh => by simpa using hh.1)]
        rfl
    · cases t with
      | nil => simp [shielded] at ht
      | cons a as =>
        rw [removeSingleF_cons, if_neg (fun hh => by simpa using hh.1)]
        have h2 := ih (a :: as) ht
        simpa [shielded] using h2

theorem removeSingleF_head_ne (k : Nat) {c : Char} (cs : List Char) (hc : c ≠ '-') :
    ∃ X, removeSingleF (k + 1) (c :: cs) = c :: X := by
  cases cs with
  | nil => exact ⟨[], removeSingleF_one k c⟩
  | cons c2 rest =>
    rw [removeSingleF_cons, if_neg (fun hh => hc hh.1)]
    exact ⟨_, rfl⟩

/-- **Core single-line invariant.**  After the single-line pass, the
single-line comment regex no longer matches anywhere: every surviving `--` is
shielded. -/
theorem hasSingle_removeSingleF (f : Nat) :
    ∀ s : List Char, s.length ≤ f → hasSingle (removeSingleF f s) = false := by
  induction f with
  | zero =>
    intro s hf
    have hnil : s = [] := List.length_eq_zero.mp (Nat.le_zero.mp hf)
    subst hnil
    exact hasSingle_nil
  | succ k ih =>
    intro s hf
    cases s with
    | nil => exact hasSingle_nil
    | cons c cs =>
      cases cs with
      | nil => rw [removeSingleF_one]; rw [hasSingle_cons]; simp [singleMatchAt_singleton, hasSingle_nil]
      | cons c2 rest =>
        have hlen2 : (c2 :: rest).length ≤ k := Nat.le_of_succ_le_succ hf
        have hlenr : rest.length ≤ k := le_trans (by simp) hlen2
        rw [removeSingleF_cons]
        by_cases hm : c = '-' ∧ c2 = '-' ∧ shielded rest = false
        · rw [if_pos hm]
          exact ih _ (le_trans (length_dropWhile_le _ _) hlenr)
        · rw [if_neg hm]
          rw [hasSingle_cons, Bool.or_eq_false_iff]
          refine ⟨?_, ih _ hlen2⟩
          by_cases hc : c = '-'
          · subst hc
            by_cases hc2 : c2 = '-'
            · subst hc2
              have hsh : shielded rest = true := by
                by_contra hx
                exact hm ⟨rfl, rfl, by simpa using hx⟩
              cases k with
              | zero => simp at hlen2
              | succ k2 =>
                have hr1 : ∃ r1 rs, rest = r1 :: rs ∧ r1 ≠ '-' := by
                  rcases shielded_cases hsh with ⟨t, rfl⟩ | ⟨t, rfl, _⟩
                  · exact ⟨'[', t, rfl, by decide⟩
                  · exact ⟨'=', t, rfl, by decide⟩
                obtain ⟨r1, rs, rfl, hr1ne⟩ := hr1
                rw [removeSingleF_cons, if_neg (fun hh => hr1ne hh.2.1)]
                rw [singleMatchAt_dd]
                have hpres := shielded_removeSingleF k2 (r1 :: rs) hsh
                simp [hpres]
            · cases k with
              | zero => simp at hlen2
              | succ k2 =>
                obtain ⟨X, hX⟩ := removeSingleF_head_ne k2 rest hc2
                rw [hX, singleMatchAt_second_ne _ hc2]
          · rw [singleMatchAt_head_ne hc]


theorem blankMatch_suffix : ∀ {s r : List Char}, blankMatch s = some r →
    r <:+ s ∧ r.length < s.length := by
  intro s
  induction s with
  | nil => intro r h; simp [blankMatch] at h
  | cons c cs ih =>
    intro r h
    rw [blankMatch] at h
    by_cases hsp : isSpaceC c
    · rw [if_pos hsp] at h
      cases hbm : blankMatch cs with
      | some r2 =>
        simp only [hbm] at h
        obtain rfl := Option.some.inj h
        obtain ⟨h1, h2⟩ := ih hbm
        refine ⟨h1.trans (List.suffix_cons c cs), ?_⟩
        simp only [List.length_cons]
        omega
      | none =>
        simp only [hbm] at h
        by_cases hcr : isCRLF c
        · rw [if_pos hcr] at h
          obtain rfl := Option.some.inj h
          exact ⟨List.suffix_cons c cs, by simp⟩
        · rw [if_neg hcr] at h
          simp at h
    · rw [if_neg hsp] at h
      simp at h

theorem stripBlankF_zero (b : Bool) (s : List Char) : stripBlankF 0 b s = s := rfl

theorem stripBlankF_cons_false (f : Nat) (c : Char) (cs : List Char) :
    stripBlankF (f + 1) false (c :: cs) = c :: stripBlankF f (isTermC c) cs := rfl

theorem stripBlankF_cons_true (f : Nat) (c : Char) (cs : List Char) :
    stripBlankF (f + 1) true (c :: cs)
      = match blankMatch (c :: cs) with
        | some r => stripBlankF f true r
        | none => c :: stripBlankF f (isTermC c) cs := rfl

/-- The shield run after a skipped `--` contains no whitespace and sits
mid-line, so the blank-line pass copies it verbatim. -/
theorem shielded_stripBlankF_false (f : Nat) :
    ∀ r : List Char, shielded r = true → shielded (stripBlankF f false r) = true := by
  induction f with
  | zero => intro r h; exact h
  | succ k ih =>
    intro r h
    rcases shielded_cases h with ⟨t, rfl⟩ | ⟨t, rfl, ht⟩
    · rw [stripBlankF_cons_false]
      rfl
    · rw [stripBlankF_cons_false]
      have h2 := ih t ht
      have hterm : isTermC '=' = false := by decide
      rw [hterm]
      simpa [shielded] using h2

/-- The blank-line pass cannot create a single-line comment match: removals
splice text only across line boundaries, and shield runs survive. -/
theorem stripBlankF_no_single (f : Nat) :
    ∀ (flag : Bool) (s : List Char), s.length ≤ f → hasSingle s = false →
      hasSingle (stripBlankF f flag s) = false := by
  induction f with
  | zero =>
    intro flag s hf _
    have hnil : s = [] := List.length_eq_zero.mp (Nat.le_zero.mp hf)
    subst hnil
    exact hasSingle_nil
  | succ k ih =>
    intro flag s hf hs
    cases s with
    | nil => exact hasSingle_nil
    | cons c cs =>
      have hcs : cs.length ≤ k := Nat.le_of_succ_le_succ hf
      -- the emit step, shared by the `false` flag and the failed-match case
      have emit : hasSingle (c :: stripBlankF k (isTermC c) cs) = false := by
        rw [hasSingle_cons, Bool.or_eq_false_iff]
        refine ⟨?_, ih (isTermC c) cs hcs (hasSingle_tail hs)⟩
        by_cases hc : c = '-'
        · subst hc
          have hterm : isTermC '-' = false := by decide
          rw [hterm]
          cases cs with
          | nil => rw [stripBlankF_nil]; exact singleMatchAt_singleton '-'
          | cons d ds =>
            cases k with
            | zero => simp at hcs
            | succ k2 =>
              rw [stripBlankF_cons_false]
              by_cases hd : d = '-'
              · subst hd
                have hsh : shielded ds = true := by
                  have h1 : singleMatchAt ('-' :: '-' :: ds) = false := by
                    rw [hasSingle_cons, Bool.or_eq_false_iff] at hs
                    exact hs.1
                  rw [singleMatchAt_dd] at h1
                  simpa using h1
                have hterm2 : isTermC '-' = false := by decide
                rw [hterm2, singleMatchAt_dd]
                simp [shielded_stripBlankF_false k2 ds hsh]
              · rw [singleMatchAt_second_ne _ hd]
        · rw [singleMatchAt_head_ne hc]
      cases flag with
      | false =>
        rw [stripBlankF_cons_false]
        exact emit
      | true =>
        rw [stripBlankF_cons_true]
        cases hbm : blankMatch (c :: cs) with
        | some r =>
          simp only [hbm]
          obtain ⟨hsuf, hlen⟩ := blankMatch_suffix hbm
          have hlen2 : r.length ≤ k := by
            simp only [List.length_cons] at hlen hf
            omega
          exact ih true r hlen2 (hasSingle_suffix_false hsuf hs)
        | none =>
          simp only [hbm]
          exact emit

/-- **C1 (amended).**  For every input `t`, `hasComments (deleteAllComments t)`
equals the long-bracket detector alone on the output: no single-line comment
can survive `deleteAllComments`, so the composite is false unless a
long-bracket comment survives.  (The original precondition — only
well-terminated comments — is not sufficient, because removing a comment can
splice a *new* long-bracket comment together, as in `"--[--[[a]][ x ]]"`.) -/
theorem c1_amended_no_single_survives (t : String) :
    hasComments (deleteAllComments t) = multiLineTest (deleteAllComments t) := by
  rw [hasComments]
  have hsingle : singleLineTest (deleteAllComments t) = false := by
    rw [singleLineTest]
    show hasSingle (removeBlank (removeSingle (removeLong t.data))) = false
    rw [removeBlank]
    refine stripBlankF_no_single _ true _ (le_refl _) ?_
    rw [removeSingle]
    exact hasSingle_removeSingleF _ _ (le_refl _)
  rw [hsingle, Bool.or_false]


/-! ## C6: the preserve-mode rewrite -/

theorem preservePassF_nil (f : Nat) : preservePassF f [] = [] := by
  cases f <;> rfl

theorem preservePassF_one (f : Nat) (c : Char) : preservePassF (f + 1) [c] = [c] := by
  rw [preservePassF]

theorem preservePassF_match (f : Nat) (c c2 : Char) (rest : List Char)
    (h : c = '-' ∧ c2 = '-' ∧ rest.head? ≠ some '[') :
    preservePassF (f + 1) (c :: c2 :: rest)
      = (if jsTrim (rest.takeWhile (fun x => isTermC x = false)) = [] then []
         else " --[[ ".data ++ jsTrim (rest.takeWhile (fun x => isTermC x = false))
           ++ " ]] ".data)
        ++ preservePassF f (rest.dropWhile (fun x => isTermC x = false)) := by
  rw [preservePassF, if_pos h]

theorem preservePassF_nomatch (f : Nat) (c c2 : Char) (rest : List Char)
    (h : ¬(c = '-' ∧ c2 = '-' ∧ rest.head? ≠ some '[')) :
    preservePassF (f + 1) (c :: c2 :: rest) = c :: preservePassF f (c2 :: rest) := by
  rw [preservePassF, if_neg h]

/-- A long-bracket start `--[` is skipped verbatim by the preserve-mode
rewrite pass (scanning continues inside what follows it). -/
theorem preservePassF_bracket (f : Nat) (content : List Char) :
    preservePassF (f + 3) ('-' :: '-' :: '[' :: content)
      = '-' :: '-' :: '[' :: preservePassF f content := by
  rw [preservePassF_nomatch (f + 2) '-' '-' ('[' :: content) (fun hh => hh.2.2 rfl)]
  cases content with
  | nil =>
    rw [preservePassF_nomatch (f + 1) '-' '[' []
      (fun hh => absurd hh.2.1 (by decide))]
    rw [preservePassF_one, preservePassF_nil]
  | cons d ds =>
    rw [preservePassF_nomatch (f + 1) '-' '[' (d :: ds)
      (fun hh => absurd hh.2.1 (by decide))]
    rw [preservePassF_nomatch f '[' d ds (fun hh => absurd hh.1 (by decide))]

/-! ## C8: no blank line survives (except an unterminated final one) -/

theorem hasBlankLine_nil (b : Bool) : hasBlankLine b [] = false := rfl

theorem hasBlankLine_cons (b : Bool) (c : Char) (cs : List Char) :
    hasBlankLine b (c :: cs)
      = ((b && (blankMatch (c :: cs)).isSome) || hasBlankLine (isTermC c) cs) := by
  rw [hasBlankLine]

/-- If the blank-line pattern does not match at a position, it still does not
match there after the pass has rewritten the remainder: the pass preserves a
leading whitespace run that contains no `\r`/`\n`. -/
theorem blankMatch_stripBlankF_none (f : Nat) :
    ∀ (flag : Bool) (s : List Char), blankMatch s = none →
      blankMatch (stripBlankF f flag s) = none := by
  induction f with
  | zero => intro flag s h; exact h
  | succ k ih =>
    intro flag s h
    cases s with
    | nil => rw [stripBlankF_nil]; exact h
    | cons c cs =>
      have hemit : blankMatch (c :: stripBlankF k (isTermC c) cs) = none := by
        rw [blankMatch]
        by_cases hsp : isSpaceC c
        · rw [if_pos hsp]
          rw [blankMatch, if_pos hsp] at h
          cases hbm : blankMatch cs with
          | some r => simp [hbm] at h
          | none =>
            simp only [hbm] at h
            have hcr : isCRLF c = false := by
              by_cases hx : isCRLF c
              · rw [if_pos hx] at h; simp at h
              · simpa using hx
            have h2 := ih (isTermC c) cs hbm
            simp only [h2, hcr]
            simp
        · rw [if_neg hsp]
      cases flag with
      | false => rw [stripBlankF_cons_false]; exact hemit
      | true =>
        rw [stripBlankF_cons_true]
        simp only [h]
        exact hemit

theorem stripBlankF_no_blank (f : Nat) :
    ∀ (flag : Bool) (s : List Char), s.length ≤ f →
      hasBlankLine flag (stripBlankF f flag s) = false := by
  induction f with
  | zero =>
    intro flag s hf
    have hnil : s = [] := List.length_eq_zero.mp (Nat.le_zero.mp hf)
    subst hnil
    exact hasBlankLine_nil flag
  | succ k ih =>
    intro flag s hf
    cases s with
    | nil => rw [stripBlankF_nil]; exact hasBlankLine_nil flag
    | cons c cs =>
      have hcs : cs.length ≤ k := Nat.le_of_succ_le_succ hf
      cases flag with
      | false =>
        rw [stripBlankF_cons_false, hasBlankLine_cons]
        simp [ih (isTermC c) cs hcs]
      | true =>
        rw [stripBlankF_cons_true]
        cases hbm : blankMatch (c :: cs) with
        | some r =>
          simp only [hbm]
          obtain ⟨hsuf, hlen⟩ := blankMatch_suffix hbm
          have hlen2 : r.length ≤ k := by
            simp only [List.length_cons] at hlen hf
            omega
          exact ih true r hlen2
        | none =>
          simp only [hbm]
          rw [hasBlankLine_cons]
          have hp := blankMatch_stripBlankF_none (k + 1) true (c :: cs) hbm
          rw [stripBlankF_cons_true] at hp
          simp only [hbm] at hp
          simp [hp, ih (isTermC c) cs hcs]

/-- **C8 (amended).**  After `deleteAllComments`, the result contains no
empty or whitespace-only line *that is terminated by a newline*: at no line
start does `\s*[\r\n]` match.  (A whitespace-only final line with no trailing
newline is outside the regex's reach and survives, as in
`deleteAllComments "x\n " = "x\n "`.) -/
theorem c8_amended_no_terminated_blank_line (t : String) :
    hasBlankLine true (deleteAllComments t).data = false := by
  show hasBlankLine true (removeBlank (removeSingle (removeLong t.data))) = false
  rw [removeBlank]
  exact stripBlankF_no_blank _ true _ (le_refl _)


/-! ## C9: unterminated long-bracket openers are left alone -/

theorem ddAt_one (c : Char) : ddAt [c] = false := rfl

theorem ddAt_pair (c1 c2 : Char) (l : List Char) :
    ddAt (c1 :: c2 :: l) = decide (c1 = '-' ∧ c2 = '-') := rfl

theorem hasDashDash_cons (c : Char) (cs : List Char) :
    hasDashDash (c :: cs) = (ddAt (c :: cs) || hasDashDash cs) := by
  rw [hasDashDash]

theorem hasDashDash_tail {c : Char} {cs : List Char}
    (h : hasDashDash (c :: cs) = false) : hasDashDash cs = false := by
  rw [hasDashDash_cons, Bool.or_eq_false_iff] at h
  exact h.2

theorem ddAt_false_of_dd_false {c : Char} {cs : List Char}
    (h : hasDashDash (c :: cs) = false) : ddAt (c :: cs) = false := by
  rw [hasDashDash_cons, Bool.or_eq_false_iff] at h
  exact h.1

theorem ddAt_false_left {c : Char} (hc : c ≠ '-') (cs : List Char) :
    ddAt (c :: cs) = false := by
  cases cs with
  | nil => exact ddAt_one c
  | cons c2 l => rw [ddAt_pair]; exact decide_eq_false (fun hh => hc hh.1)

theorem hasDashDash_cons_ne {c : Char} (hc : c ≠ '-') (cs : List Char) :
    hasDashDash (c :: cs) = hasDashDash cs := by
  rw [hasDashDash_cons, ddAt_false_left hc, Bool.false_or]

theorem hasDashDash_replicate_eq (n : Nat) (l : List Char) :
    hasDashDash (List.replicate n '=' ++ l) = hasDashDash l := by
  induction n with
  | zero => simp
  | succ k ih =>
    rw [List.replicate_succ, List.cons_append,
      hasDashDash_cons_ne (by decide : ('=' : Char) ≠ '-'), ih]

theorem singleMatchAt_of_ddAt_false {c : Char} {cs : List Char}
    (h : ddAt (c :: cs) = false) : singleMatchAt (c :: cs) = false := by
  cases cs with
  | nil => exact singleMatchAt_singleton c
  | cons c2 l =>
    rw [ddAt_pair] at h
    rw [singleMatchAt, if_neg (of_decide_eq_false h)]

theorem longMatchAt_of_ddAt_false {c : Char} {cs : List Char}
    (h : ddAt (c :: cs) = false) : longMatchAt (c :: cs) = false := by
  cases cs with
  | nil => rfl
  | cons c2 cs2 =>
    cases cs2 with
    | nil => rfl
    | cons c3 rest =>
      rw [ddAt_pair] at h
      rw [longMatchAt,
        if_neg (fun hh => (of_decide_eq_false h) ⟨hh.1, hh.2.1⟩)]

theorem noDD_hasSingle : ∀ s : List Char, hasDashDash s = false →
    hasSingle s = false := by
  intro s
  induction s with
  | nil => intro _; rfl
  | cons c cs ih =>
    intro h
    rw [hasSingle_cons, singleMatchAt_of_ddAt_false (ddAt_false_of_dd_false h),
      ih (hasDashDash_tail h)]
    rfl

theorem noDD_hasLong : ∀ s : List Char, hasDashDash s = false →
    hasLong s = false := by
  intro s
  induction s with
  | nil => intro _; rfl
  | cons c cs ih =>
    intro h
    rw [hasLong_cons, longMatchAt_of_ddAt_false (ddAt_false_of_dd_false h),
      ih (hasDashDash_tail h)]
    rfl

theorem removeLongF_cons_nomatch (f : Nat) (c : Char) (cs : List Char)
    (h : ddAt (c :: cs) = false) :
    removeLongF (f + 1) (c :: cs) = c :: removeLongF f cs := by
  by_cases hc : c = '-'
  · subst hc
    cases cs with
    | nil => rfl
    | cons c2 cs2 =>
      cases cs2 with
      | nil => rfl
      | cons c3 rest =>
        have hne : ¬(c2 = '-' ∧ c3 = '[') := by
          intro hh
          rw [ddAt_pair] at h
          exact (of_decide_eq_false h) ⟨rfl, hh.1⟩
        simp [removeLongF, hne]
  · cases cs with
    | nil => simp [removeLongF, hc]
    | cons c2 cs2 => simp [removeLongF, hc]

theorem removeSingleF_cons_nomatch (f : Nat) (c : Char) (cs : List Char)
    (h : ddAt (c :: cs) = false) :
    removeSingleF (f + 1) (c :: cs) = c :: removeSingleF f cs := by
  cases cs with
  | nil => rw [removeSingleF_one, removeSingleF_nil]
  | cons c2 rest =>
    rw [ddAt_pair] at h
    rw [removeSingleF_cons,
      if_neg (fun hh => (of_decide_eq_false h) ⟨hh.1, hh.2.1⟩)]

theorem noDD_removeLongF : ∀ (f : Nat) (s : List Char), s.length ≤ f →
    hasDashDash s = false → removeLongF f s = s := by
  intro f
  induction f with
  | zero => intro s _ _; rfl
  | succ k ih =>
    intro s hf h
    cases s with
    | nil => exact removeLongF_nil _
    | cons c cs =>
      rw [removeLongF_cons_nomatch k c cs (ddAt_false_of_dd_false h),
        ih cs (Nat.le_of_succ_le_succ hf) (hasDashDash_tail h)]

theorem noDD_removeSingleF : ∀ (f : Nat) (s : List Char), s.length ≤ f →
    hasDashDash s = false → removeSingleF f s = s := by
  intro f
  induction f with
  | zero => intro s _ _; rfl
  | succ k ih =>
    intro s hf h
    cases s with
    | nil => exact removeSingleF_nil _
    | cons c cs =>
      rw [removeSingleF_cons_nomatch k c cs (ddAt_false_of_dd_false h),
        ih cs (Nat.le_of_succ_le_succ hf) (hasDashDash_tail h)]

theorem ddAt_append_dash {a : Char} {p' X : List Char}
    (hX : X.head? = some '-') (h1 : ddAt (a :: (p' ++ ['-'])) = false) :
    ddAt (a :: (p' ++ X)) = false := by
  cases p' with
  | nil =>
    cases X with
    | nil => simp at hX
    | cons x xs =>
      obtain rfl : x = '-' := by simpa using hX
      rw [List.nil_append] at h1 ⊢
      rw [ddAt_pair] at h1 ⊢
      exact h1
  | cons b p'' =>
    rw [List.cons_append] at h1 ⊢
    rw [ddAt_pair] at h1 ⊢
    exact h1

theorem openerL_head (n : Nat) (content : List Char) :
    (openerL n ++ content).head? = some '-' := by
  simp [openerL]

theorem openerL_shape (n : Nat) (content : List Char) :
    openerL n ++ content
      = '-' :: '-' :: '[' :: (List.replicate n '=' ++ '[' :: content) := by
  simp [openerL]

/-- The tail just past the failed opener contains no `--` when the comment
body does not. -/
theorem c9_tail_noDD (n : Nat) (content : List Char)
    (h2 : hasDashDash content = false) :
    hasDashDash ('-' :: '[' :: (List.replicate n '=' ++ '[' :: content)) = false := by
  have hdd : ddAt ('-' :: '[' :: (List.replicate n '=' ++ '[' :: content)) = false := by
    rw [ddAt_pair]; decide
  rw [hasDashDash_cons, hdd, Bool.false_or,
    hasDashDash_cons_ne (by decide : ('[' : Char) ≠ '-'),
    hasDashDash_replicate_eq,
    hasDashDash_cons_ne (by decide : ('[' : Char) ≠ '-'), h2]

theorem c9_removeLongF (n : Nat) (content : List Char)
    (h2 : hasDashDash content = false) (h3 : findCloser n content = none) :
    ∀ (f : Nat) (p : List Char), (p ++ (openerL n ++ content)).length ≤ f →
      hasDashDash (p ++ ['-']) = false →
      removeLongF f (p ++ (openerL n ++ content)) = p ++ (openerL n ++ content) := by
  intro f
  induction f with
  | zero =>
    intro p hf _
    exfalso
    rw [openerL_shape] at hf
    simp at hf
  | succ k ih =>
    intro p hf h1
    cases p with
    | nil =>
      rw [List.nil_append, openerL_shape, removeLongF_opener, h3]
      show ('-' : Char) :: removeLongF k ('-' :: '[' :: (List.replicate n '=' ++ '[' :: content))
          = '-' :: '-' :: '[' :: (List.replicate n '=' ++ '[' :: content)
      have hlen : ('-' :: '[' :: (List.replicate n '=' ++ '[' :: content)).length ≤ k := by
        rw [List.nil_append, openerL_shape] at hf
        simp only [List.length_cons] at hf ⊢
        omega
      rw [noDD_removeLongF k _ hlen (c9_tail_noDD n content h2)]
    | cons a p' =>
      rw [List.cons_append]
      have hdd : ddAt (a :: (p' ++ (openerL n ++ content))) = false :=
        ddAt_append_dash (openerL_head n content)
          (by rw [List.cons_append] at h1; exact ddAt_false_of_dd_false h1)
      rw [removeLongF_cons_nomatch k _ _ hdd]
      have hlen : (p' ++ (openerL n ++ content)).length ≤ k := by
        rw [List.cons_append] at hf
        simpa using Nat.le_of_succ_le_succ hf
      have h1t : hasDashDash (p' ++ ['-']) = false := by
        rw [List.cons_append] at h1
        exact hasDashDash_tail h1
      rw [ih p' hlen h1t]

theorem c9_removeSingleF (n : Nat) (content : List Char)
    (h2 : hasDashDash content = false) :
    ∀ (f : Nat) (p : List Char), (p ++ (openerL n ++ content)).length ≤ f →
      hasDashDash (p ++ ['-']) = false →
      removeSingleF f (p ++ (openerL n ++ content)) = p ++ (openerL n ++ content) := by
  intro f
  induction f with
  | zero =>
    intro p hf _
    exfalso
    rw [openerL_shape] at hf
    simp at hf
  | succ k ih =>
    intro p hf h1
    cases p with
    | nil =>
      rw [List.nil_append, openerL_shape, removeSingleF_cons,
        if_neg (fun hh => by simpa [shielded] using hh.2.2)]
      have hlen : ('-' :: '[' :: (List.replicate n '=' ++ '[' :: content)).length ≤ k := by
        rw [List.nil_append, openerL_shape] at hf
        simp only [List.length_cons] at hf ⊢
        omega
      rw [noDD_removeSingleF k _ hlen (c9_tail_noDD n content h2)]
    | cons a p' =>
      rw [List.cons_append]
      have hdd : ddAt (a :: (p' ++ (openerL n ++ content))) = false :=
        ddAt_append_dash (openerL_head n content)
          (by rw [List.cons_append] at h1; exact ddAt_false_of_dd_false h1)
      rw [removeSingleF_cons_nomatch k _ _ hdd]
      have hlen : (p' ++ (openerL n ++ content)).length ≤ k := by
        rw [List.cons_append] at hf
        simpa using Nat.le_of_succ_le_succ hf
      have h1t : hasDashDash (p' ++ ['-']) = false := by
        rw [List.cons_append] at h1
        exact hasDashDash_tail h1
      rw [ih p' hlen h1t]

theorem c9_hasLong (n : Nat) (content : List Char)
    (h2 : hasDashDash content = false) (h3 : findCloser n content = none) :
    ∀ p : List Char, hasDashDash (p ++ ['-']) = false →
      hasLong (p ++ (openerL n ++ content)) = false := by
  intro p
  induction p with
  | nil =>
    intro _
    rw [List.nil_append, openerL_shape, hasLong_cons, longMatchAt_opener, h3,
      noDD_hasLong _ (c9_tail_noDD n content h2)]
    rfl
  | cons a p' ih =>
    intro h1
    rw [List.cons_append, hasLong_cons]
    have hdd : ddAt (a :: (p' ++ (openerL n ++ content))) = false :=
      ddAt_append_dash (openerL_head n content)
        (by rw [List.cons_append] at h1; exact ddAt_false_of_dd_false h1)
    rw [longMatchAt_of_ddAt_false hdd,
      ih (by rw [List.cons_append] at h1; exact hasDashDash_tail h1)]
    rfl

theorem c9_hasSingle (n : Nat) (content : List Char)
    (h2 : hasDashDash content = false) :
    ∀ p : List Char, hasDashDash (p ++ ['-']) = false →
      hasSingle (p ++ (openerL n ++ content)) = false := by
  intro p
  induction p with
  | nil =>
    intro _
    rw [List.nil_append, openerL_shape, hasSingle_cons, singleMatchAt_dd,
      noDD_hasSingle _ (c9_tail_noDD n content h2)]
    simp [shielded]
  | cons a p' ih =>
    intro h1
    rw [List.cons_append, hasSingle_cons]
    have hdd : ddAt (a :: (p' ++ (openerL n ++ content))) = false :=
      ddAt_append_dash (openerL_head n content)
        (by rw [List.cons_append] at h1; exact ddAt_false_of_dd_false h1)
    rw [singleMatchAt_of_ddAt_false hdd,
      ih (by rw [List.cons_append] at h1; exact hasDashDash_tail h1)]
    rfl

/-- **C9 (amended).**  An unterminated long-bracket opener is treated as not
a comment: for every input whose only `--` occurrence begins such an opener
(text `p` with no `--` before it, not even one formed with the opener's first
`-`, then `--[` + n `=` + `[`, then a body with no `--` and no matching
closer), `hasComments` is false and the two comment-removal passes leave the
text unchanged — `deleteAllComments` returns the input with only its blank
(empty or whitespace-only, newline-terminated) lines removed, hence unchanged
exactly when there are no such blank lines. -/
theorem c9_amended_unterminated_untouched (p content : List Char) (n : Nat)
    (h1 : hasDashDash (p ++ ['-']) = false)
    (h2 : hasDashDash content = false)
    (h3 : findCloser n content = none) :
    hasComments (String.mk (p ++ (openerL n ++ content))) = false ∧
    deleteAllComments (String.mk (p ++ (openerL n ++ content)))
      = String.mk (removeBlank (p ++ (openerL n ++ content))) := by
  constructor
  · rw [hasComments, multiLineTest, singleLineTest]
    show (hasLong (p ++ (openerL n ++ content))
      || hasSingle (p ++ (openerL n ++ content))) = false
    rw [c9_hasLong n content h2 h3 p h1, c9_hasSingle n content h2 p h1]
    rfl
  · rw [deleteAllComments]
    show String.mk
        (removeBlank (removeSingle (removeLong (p ++ (openerL n ++ content)))))
      = String.mk (removeBlank (p ++ (openerL n ++ content)))
    rw [removeLong, c9_removeLongF n content h2 h3 _ p (le_refl _) h1,
      removeSingle, c9_removeSingleF n content h2 _ p (le_refl _) h1]

theorem c9_amended_witness :
    hasComments (String.mk (['a'] ++ (openerL 0 ++ ['b']))) = false ∧
    deleteAllComments (String.mk (['a'] ++ (openerL 0 ++ ['b'])))
      = String.mk (removeBlank (['a'] ++ (openerL 0 ++ ['b']))) :=
  c9_amended_unterminated_untouched ['a'] ['b'] 0 (by decide) (by decide) (by decide)


/-! ## C6: the preserve-mode rewrite, at an arbitrary position -/

/-- The result of the preserve-mode pass does not depend on the fuel, as long
as the fuel covers the input length. -/
theorem preservePassF_irrel : ∀ (f : Nat) (s : List Char), s.length ≤ f →
    ∀ g : Nat, s.length ≤ g → preservePassF f s = preservePassF g s := by
  intro f
  induction f with
  | zero =>
    intro s hf g _
    have hnil : s = [] := List.length_eq_zero.mp (Nat.le_zero.mp hf)
    subst hnil
    rw [preservePassF_nil, preservePassF_nil]
  | succ k ih =>
    intro s hf g hg
    cases s with
    | nil => rw [preservePassF_nil, preservePassF_nil]
    | cons c cs =>
      cases g with
      | zero => simp at hg
      | succ m =>
        cases cs with
        | nil => rw [preservePassF_one, preservePassF_one]
        | cons c2 rest =>
          have hk : (c2 :: rest).length ≤ k := Nat.le_of_succ_le_succ hf
          have hm : (c2 :: rest).length ≤ m := Nat.le_of_succ_le_succ hg
          have hrk : rest.length ≤ k := le_trans (by simp) hk
          have hrm : rest.length ≤ m := le_trans (by simp) hm
          by_cases hcond : c = '-' ∧ c2 = '-' ∧ rest.head? ≠ some '['
          · rw [preservePassF_match k c c2 rest hcond,
              preservePassF_match m c c2 rest hcond]
            congr 1
            have htl := length_dropWhile_le (fun x => isTermC x = false) rest
            exact ih _ (le_trans htl hrk) m (le_trans htl hrm)
          · rw [preservePassF_nomatch k c c2 rest hcond,
              preservePassF_nomatch m c c2 rest hcond]
            congr 1
            exact ih _ hk m hm

/-- A `--` not immediately followed by `[` is rewritten: the whole rest of
its physical line is consumed, replaced by the trimmed inline block comment
(or nothing when only whitespace), and the pass continues at the line
terminator. -/
theorem preservePass_match {rest : List Char} (hhd : rest.head? ≠ some '[') :
    preservePass ('-' :: '-' :: rest)
      = (if jsTrim (rest.takeWhile (fun x => isTermC x = false)) = [] then []
         else " --[[ ".data ++ jsTrim (rest.takeWhile (fun x => isTermC x = false))
           ++ " ]] ".data)
        ++ preservePass (rest.dropWhile (fun x => isTermC x = false)) := by
  rw [preservePass, preservePass]
  have hlen : ('-' :: '-' :: rest).length = (rest.length + 1) + 1 := by simp
  rw [hlen, preservePassF_match _ _ _ _ ⟨rfl, rfl, hhd⟩]
  congr 1
  exact preservePassF_irrel _ _
    (le_trans (length_dropWhile_le _ _) (Nat.le_succ _)) _ (le_refl _)

/-- At a position that does not start a `--` pair, the preserve-mode pass
emits the character and scans on. -/
theorem preservePass_cons_nomatch {a : Char} {cs : List Char}
    (h : ddAt (a :: cs) = false) :
    preservePass (a :: cs) = a :: preservePass cs := by
  cases cs with
  | nil => rfl
  | cons c2 rest =>
    rw [preservePass, preservePass]
    have hlen : (a :: c2 :: rest).length = (rest.length + 1) + 1 := by simp
    rw [hlen]
    rw [ddAt_pair] at h
    rw [preservePassF_nomatch _ a c2 rest
      (fun hh => (of_decide_eq_false h) ⟨hh.1, hh.2.1⟩)]
    congr 1

/-- Decomposition form: after any prefix `p` that the pass copies verbatim
(no `--` in `p`, and none formed with the comment's first dash), the `--`
comment is rewritten and the pass continues on the following lines. -/
theorem preservePass_decomp {rest : List Char} (hhd : rest.head? ≠ some '[') :
    ∀ p : List Char, hasDashDash (p ++ ['-']) = false →
      preservePass (p ++ '-' :: '-' :: rest)
        = p ++
          ((if jsTrim (rest.takeWhile (fun x => isTermC x = false)) = [] then []
            else " --[[ ".data ++ jsTrim (rest.takeWhile (fun x => isTermC x = false))
              ++ " ]] ".data)
            ++ preservePass (rest.dropWhile (fun x => isTermC x = false))) := by
  intro p
  induction p with
  | nil =>
    intro _
    rw [List.nil_append, List.nil_append]
    exact preservePass_match hhd
  | cons a p' ih =>
    intro h1
    rw [List.cons_append]
    have hdd : ddAt (a :: (p' ++ '-' :: '-' :: rest)) = false :=
      ddAt_append_dash rfl
        (by rw [List.cons_append] at h1; exact ddAt_false_of_dd_false h1)
    rw [preservePass_cons_nomatch hdd,
      ih (by rw [List.cons_append] at h1; exact hasDashDash_tail h1)]
    simp

/-- **C6 (amended).**  In preserve mode, every `--` that is *not immediately
followed by `[`* is rewritten: with any comment-free text `p` before it, the
rest of its physical line becomes the inline block comment
`" --[[ <trimmed content> ]] "` — nothing at all when the trimmed content is
only whitespace — and the pass continues on the following lines.  A `--`
immediately followed by `[` is left in place even when it is not a
long-bracket comment (e.g. `--[x`), and scanning continues after it, so `--`
occurrences inside a long-bracket comment's body can still be rewritten. -/
theorem c6_amended_preserve_rewrite :
    (∀ p rest : List Char, hasDashDash (p ++ ['-']) = false →
      rest.head? ≠ some '[' →
      preservePass (p ++ '-' :: '-' :: rest)
        = p ++
          ((if jsTrim (rest.takeWhile (fun x => isTermC x = false)) = [] then []
            else " --[[ ".data ++ jsTrim (rest.takeWhile (fun x => isTermC x = false))
              ++ " ]] ".data)
            ++ preservePass (rest.dropWhile (fun x => isTermC x = false)))) ∧
    (∀ content : List Char,
      preservePass ('-' :: '-' :: '[' :: content)
        = '-' :: '-' :: '[' :: preservePass content) := by
  constructor
  · intro p rest h1 hhd
    exact preservePass_decomp hhd p h1
  · intro content
    rw [preservePass, preservePass]
    have hlen : ('-' :: '-' :: '[' :: content).length = content.length + 3 := by simp
    rw [hlen, preservePassF_bracket]

theorem c6_amended_witness :
    preservePass (('a' :: ' ' :: []) ++ '-' :: '-'
        :: (' ' :: 'h' :: 'i' :: '\n' :: 'o' :: 'k' :: []))
      = ('a' :: ' ' :: []) ++
        ((if jsTrim ((' ' :: 'h' :: 'i' :: '\n' :: 'o' :: 'k' :: []).takeWhile
              (fun x => isTermC x = false)) = [] then []
          else " --[[ ".data
            ++ jsTrim ((' ' :: 'h' :: 'i' :: '\n' :: 'o' :: 'k' :: []).takeWhile
              (fun x => isTermC x = false))
            ++ " ]] ".data)
          ++ preservePass ((' ' :: 'h' :: 'i' :: '\n' :: 'o' :: 'k' :: []).dropWhile
            (fun x => isTermC x = false))) :=
  c6_amended_preserve_rewrite.1 ('a' :: ' ' :: [])
    (' ' :: 'h' :: 'i' :: '\n' :: 'o' :: 'k' :: []) (by decide) (by decide)

end LuaUtils
